import Mathlib

/-!
Verification development for the RustTimeTrack time-entry engine
(`src/ui/task_details.rs`, `src/application.rs`).

Rust strings are modelled as `List Char`.  `str` injects Lean string
literals for concrete test inputs.  Timestamps are modelled as `Int`
seconds (chrono `DateTime<Local>` differences are compared through
`num_seconds`, so second granularity is exact for every comparison the
code performs).  The chrono text parser and the GTK/store collaborators
are external to the repository and appear as parameters.
-/

abbrev LStr := List Char

def str (s : String) : LStr := s.data

/-- Remove trailing whitespace. -/
def trimRightWS : LStr → LStr
  | [] => []
  | c :: t =>
    if (trimRightWS t).isEmpty then (if c.isWhitespace then [] else [c])
    else c :: trimRightWS t

/-- Rust `str::trim` (both ends), over the ASCII whitespace the inputs use. -/
def trimStr (l : LStr) : LStr := trimRightWS (l.dropWhile Char.isWhitespace)

/-- ASCII lowercase table, modelling `str::to_lowercase` on the tag fragments. -/
def lowerPairs : List (Char × Char) :=
  [('A','a'), ('B','b'), ('C','c'), ('D','d'), ('E','e'), ('F','f'), ('G','g'),
   ('H','h'), ('I','i'), ('J','j'), ('K','k'), ('L','l'), ('M','m'), ('N','n'),
   ('O','o'), ('P','p'), ('Q','q'), ('R','r'), ('S','s'), ('T','t'), ('U','u'),
   ('V','v'), ('W','w'), ('X','x'), ('Y','y'), ('Z','z')]

def lowerChar (c : Char) : Char := (lowerPairs.lookup c).getD c

def lowerStr (l : LStr) : LStr := l.map lowerChar

/-- itertools `unique()`: keep the first occurrence of each element (exact equality). -/
def uniqueAux : List LStr → List LStr → List LStr
  | _, [] => []
  | seen, x :: xs => if x ∈ seen then uniqueAux seen xs else x :: uniqueAux (x :: seen) xs

def uniqueFirst (l : List LStr) : List LStr := uniqueAux [] l

/-- Tag pipeline of `task_details.rs` lines 391-398 (also 777-784):
`new_tags.trim().split('#')`, trim each fragment, drop empties, `unique()`,
lowercase each fragment. -/
def normalizeTags (raw : LStr) : List LStr :=
  (uniqueFirst ((((trimStr raw).splitOn '#').map trimStr).filter (· ≠ []))).map lowerStr

/-- `lower_tags.join(" #")` (line 399): the fragments joined with the
two-character separator `" #"`, no leading or trailing separator. -/
def renderTags : List LStr → LStr
  | [] => []
  | [a] => a
  | a :: rest => a ++ ' ' :: '#' :: renderTags rest

/-! ## Data model -/

/-- A stored time entry (`database::Task`).  `start_time` / `stop_time` are the
instants encoded by the stored RFC 3339 strings. -/
structure TaskEntry where
  id : Int
  task_name : LStr
  tags : LStr
  start_time : Int
  stop_time : Int
deriving DecidableEq

/-- One store write issued through the `database` CRUD interface. -/
inductive WriteOp where
  | updStop (id : Int) (t : Int)
  | updStart (id : Int) (t : Int)
  | updName (id : Int) (s : LStr)
  | updTags (id : Int) (s : LStr)
deriving DecidableEq

/-- Captured dialog state for a single-entry edit: current entry-widget texts
and the originals they are compared against (`start_time_w_year`,
`stop_time_w_year`, `task.task_name`, `task_tags`). -/
structure Dialog where
  startText : LStr
  stopText : LStr
  nameText : LStr
  tagsText : LStr
  origStart : LStr
  origStop : LStr
  origName : LStr
  origTags : LStr
deriving DecidableEq

/-! ## Single-entry edit (`setup_widgets` response handler, lines 307-426) -/

/-- Outcome of the start-entry section (lines 317-341).  `newStart` models
`new_start_time_local`, initialised to `Local::now()`. -/
structure StartPhase where
  instructions : Bool
  futureError : Bool
  doNotClose : Bool
  startSuccessful : Bool
  newStart : Int
deriving DecidableEq

def startPhase (parse : LStr → Option Int) (now : Int) (startText origStart : LStr) :
    StartPhase :=
  if startText ≠ origStart then
    match parse startText with
    | none => ⟨true, false, true, false, now⟩
    | some t =>
      if now - t < 0 then ⟨false, true, true, false, now⟩
      else ⟨false, false, false, true, t⟩
  else ⟨false, false, false, false, now⟩

/-- Outcome of the stop-entry section (lines 342-383). -/
structure StopPhase where
  writes : List WriteOp
  instructions : Bool
  futureError : Bool
  timeError : Bool
  doNotClose : Bool
  stopSuccessful : Bool
deriving DecidableEq

def stopPhase (parse : LStr → Option Int) (now : Int) (task : TaskEntry) (sp : StartPhase)
    (stopText origStop : LStr) : StopPhase :=
  if stopText ≠ origStop then
    match parse stopText with
    | none => ⟨[], true, false, false, true, false⟩
    | some ts =>
      if sp.startSuccessful then
        if ts - sp.newStart ≥ 0 then
          ⟨[.updStop task.id ts, .updStart task.id sp.newStart],
            false, false, false, false, true⟩
        else ⟨[], false, false, false, false, true⟩
      else
        if now - ts < 0 then ⟨[], false, true, false, true, true⟩
        else if ts - task.start_time ≥ 0 then
          ⟨[.updStop task.id ts], false, false, false, false, true⟩
        else ⟨[], false, false, true, true, true⟩
  else ⟨[], false, false, false, false, false⟩

/-- Lines 384-387: the task name is written whenever the text differs. -/
def namePhase (id : Int) (nameText origName : LStr) : List WriteOp :=
  if nameText ≠ origName then [.updName id nameText] else []

/-- Lines 389-402: normalized tags are written whenever the text differs. -/
def tagsPhase (id : Int) (tagsText origTags : LStr) : List WriteOp :=
  if tagsText ≠ origTags then [.updTags id (renderTags (normalizeTags tagsText))] else []

/-- Lines 404-414: start edited alone is checked against the stored stop. -/
structure StartOnly where
  writes : List WriteOp
  timeError : Bool
  doNotClose : Bool
deriving DecidableEq

def startOnlyPhase (task : TaskEntry) (sp : StartPhase) (stp : StopPhase) : StartOnly :=
  if sp.startSuccessful && !stp.stopSuccessful then
    if task.stop_time - sp.newStart ≥ 0 then ⟨[.updStart task.id sp.newStart], false, false⟩
    else ⟨[], true, true⟩
  else ⟨[], false, false⟩

/-- Result of the whole OK response: issued writes in program order, the three
error labels (`instructions` = InvalidFormat, `futureError` = FutureTime,
`timeError` = RangeInvalid), and whether the dialog closes. -/
structure EditResult where
  writes : List WriteOp
  instructions : Bool
  futureError : Bool
  timeError : Bool
  close : Bool
deriving DecidableEq

/-- The Ok-response handler for a single-entry edit (lines 307-419).
`parse` is the chrono `NaiveDateTime::parse_from_str` call with the active
formatter; `now` is `Local::now()`. -/
def editResponse (parse : LStr → Option Int) (now : Int) (task : TaskEntry) (d : Dialog) :
    EditResult :=
  let sp := startPhase parse now d.startText d.origStart
  let stp := stopPhase parse now task sp d.stopText d.origStop
  let nw := namePhase task.id d.nameText d.origName
  let tw := tagsPhase task.id d.tagsText d.origTags
  let so := startOnlyPhase task sp stp
  { writes := stp.writes ++ nw ++ tw ++ so.writes
    instructions := sp.instructions || stp.instructions
    futureError := sp.futureError || stp.futureError
    timeError := stp.timeError || so.timeError
    close := !(sp.doNotClose || stp.doNotClose || so.doNotClose) }

/-! ## Group rename (`setup_signals`, lines 528-568) -/

/-- First fragment of the trimmed entry text split on `#`
(`split_tags.first().unwrap()`). -/
def renameHead (text : LStr) : LStr := (((trimStr text).splitOn '#').headD [])

/-- The remaining fragments, normalized and joined (lines 536-545). -/
def renameTagList (text : LStr) : LStr :=
  renderTags
    ((uniqueFirst (((((trimStr text).splitOn '#').tail).map trimStr).filter (· ≠ []))).map
      lowerStr)

def renameWrites (ids : List Int) (text : LStr) : List WriteOp :=
  ids.flatMap fun i =>
    [.updName i (trimStr (renameHead text)), .updTags i (renameTagList text)]

/-- The Ok response of the edit-task-names dialog: `Except.error ()` is the
"Task name cannot be empty." outcome with no store writes (lines 547-564). -/
def renameGroup (ids : List Int) (text : LStr) : Except Unit (List WriteOp) :=
  if renameHead text ≠ [] then .ok (renameWrites ids text) else .error ()

/-! ## Group deletion and refresh -/

/-- `database::delete_by_ids`: delete each listed id from the store. -/
def delete_by_ids (store : List TaskEntry) (ids : List Int) : List TaskEntry :=
  ids.foldl (fun s i => s.filter (fun t => t.id ≠ i)) store

/-- `delete_all` (lines 808-811): deletes the captured `all_task_ids` as-is. -/
def delete_all (store : List TaskEntry) (all_task_ids : List Int) : List TaskEntry :=
  delete_by_ids store all_task_ids

/-- `database::get_list_by_id`: fetch the entries whose id is listed. -/
def get_list_by_id (store : List TaskEntry) (ids : List Int) : List TaskEntry :=
  store.filter (fun t => t.id ∈ ids)

/-- The defining key captured when the view was formed: `this_day`,
`task_name_label` text, `orig_tags`. -/
structure GroupKey where
  day : Int
  name : LStr
  tags : LStr
deriving DecidableEq

/-- The retain predicate of `clear_task_list` (lines 450-464): keep an entry
iff its current day, name and tags all equal the captured key.  `dayFn` models
the `%F` local-date formatting of an instant. -/
def keyMatches (dayFn : Int → Int) (k : GroupKey) (t : TaskEntry) : Bool :=
  dayFn t.start_time = k.day && t.task_name = k.name && t.tags = k.tags

/-- `clear_task_list` (lines 437-474): re-query by the known ids, retain only
entries still matching the key; `none` models the view closing when no member
remains. -/
def clear_task_list (dayFn : Int → Int) (store : List TaskEntry) (ids : List Int)
    (k : GroupKey) : Option (List TaskEntry) :=
  let updated := (get_list_by_id store ids).filter (keyMatches dayFn k)
  if updated.length > 0 then some updated else none

/-! ## Add similar (`setup_add_similar` Ok response, lines 705-802) -/

structure AddInput where
  nameText : LStr
  tagsText : LStr
  startText : LStr
  stopText : LStr
deriving DecidableEq

/-- `database::db_write(name.trim(), start, stop, tags)` arguments. -/
structure DbWrite where
  name : LStr
  start : Int
  stop : Int
  tags : LStr
deriving DecidableEq

structure AddResult where
  write : Option DbWrite
  nameError : Bool
  instructions : Bool
  futureError : Bool
  timeError : Bool
deriving DecidableEq

def addSimilar (parse : LStr → Option Int) (now : Int) (inp : AddInput) : AddResult :=
  let nameBad := trimStr inp.nameText = []
  let startRes := parse inp.startText
  let stopRes := parse inp.stopText
  let startLocal := startRes.getD now
  let stopLocal := stopRes.getD now
  let startFuture := startRes.isSome && decide (now - startLocal < 0)
  let stopFuture := stopRes.isSome && decide (now - stopLocal < 0)
  let dnc1 := nameBad || startRes.isNone || startFuture || stopRes.isNone || stopFuture
  let rangeBad := !dnc1 && decide (stopLocal - startLocal < 0)
  let dnc := dnc1 || rangeBad
  let tags := if trimStr inp.tagsText ≠ [] then renderTags (normalizeTags inp.tagsText)
              else []
  { write := if dnc then none
             else some ⟨trimStr inp.nameText, startLocal, stopLocal, tags⟩
    nameError := nameBad
    instructions := startRes.isNone || stopRes.isNone
    futureError := startFuture || stopFuture
    timeError := rangeBad }

/-! ## Store-error execution (the `.expect` pattern at every update call) -/

inductive StoreError where
  | err
deriving DecidableEq

/-- Execute the issued writes against a store whose per-write outcome is
`results`.  The source calls `.expect(..)` on every `update_*` result
(lines 362-365, 374, 385, 400, 408, 551-554), so the first `Err` aborts the
process: `none` models that abort. -/
def runExpect (results : WriteOp → Except StoreError Unit) : List WriteOp → Option Unit
  | [] => some ()
  | w :: ws =>
    match results w with
    | .ok _ => runExpect results ws
    | .error _ => none


/-! ## Fixtures for concrete evaluations -/

def parseNone : LStr → Option Int := fun _ => none

def c4Parse : LStr → Option Int := fun l =>
  if l = str "S" then some 10 else if l = str "T" then some 100 else none

def c5Parse : LStr → Option Int := fun l =>
  if l = str "S" then some 100 else if l = str "T" then some 10 else none

def c6Results : WriteOp → Except StoreError Unit
  | .updName _ _ => .error .err
  | _ => .ok ()

/-! ## General lemmas -/

theorem mem_delete_by_ids (ids : List Int) (store : List TaskEntry) (t : TaskEntry) :
    t ∈ delete_by_ids store ids ↔ t ∈ store ∧ ∀ i ∈ ids, t.id ≠ i := by
  induction ids generalizing store with
  | nil => simp [delete_by_ids]
  | cons i ids ih =>
    simp only [delete_by_ids, List.foldl_cons] at *
    rw [ih]
    simp [List.mem_filter]
    tauto

/-! ## C1: group deletion and stale membership -/

/-- C1: counterexample.  The captured id list contains an entry whose current
name no longer matches the group key, yet `delete_all` deletes it: no
re-filtering happens at deletion time. -/
theorem c1_counterexample :
    keyMatches (fun t => t / 86400) ⟨0, str "Task A", str ""⟩
        ⟨1, str "Renamed", str "", 0, 5⟩ = false ∧
    (⟨1, str "Renamed", str "", 0, 5⟩ : TaskEntry) ∈
        ([⟨1, str "Renamed", str "", 0, 5⟩] : List TaskEntry) ∧
    (⟨1, str "Renamed", str "", 0, 5⟩ : TaskEntry) ∉
        delete_all [⟨1, str "Renamed", str "", 0, 5⟩] [1] := by
  decide

/-- C1 (amended): `delete_all` deletes exactly the ids in the captured
`all_task_ids` list, irrespective of whether each entry still matches the
group's defining key; an entry survives iff its id is not in the list. -/
theorem c1_amended_delete_all_exact (store : List TaskEntry) (ids : List Int)
    (t : TaskEntry) :
    t ∈ delete_all store ids ↔ t ∈ store ∧ t.id ∉ ids := by
  rw [delete_all, mem_delete_by_ids]
  constructor
  · rintro ⟨hs, hall⟩
    exact ⟨hs, fun hm => hall _ hm rfl⟩
  · rintro ⟨hs, hnm⟩
    exact ⟨hs, fun i hi he => hnm (he ▸ hi)⟩

/-! ## C6: store-write failure aborts the process -/

/-- C6: the code calls `.expect` on every `update_*` store result, so a
recoverable `StoreError` on a single-entry name edit aborts the process
(`none`) instead of being returned to the caller. -/
theorem c6_store_error_aborts :
    runExpect c6Results
      (editResponse parseNone 0 ⟨1, str "n", str "", 0, 0⟩
        ⟨str "s", str "p", str "m", str "t", str "s", str "p", str "n", str "t"⟩).writes
      = none := by
  decide

/-! ## C8: refresh re-derivation -/

/-- C8: `clear_task_list` re-queries the store by the known ids and keeps
exactly the entries whose current (day, name, tags) equal the captured key;
when no member remains the view closes (`none`). -/
theorem c8_refresh_members (dayFn : Int → Int) (store : List TaskEntry)
    (ids : List Int) (k : GroupKey) (t : TaskEntry) :
    (t ∈ (clear_task_list dayFn store ids k).getD [] ↔
      t ∈ store ∧ t.id ∈ ids ∧ keyMatches dayFn k t = true) ∧
    (clear_task_list dayFn store ids k = none ↔
      ∀ u ∈ store, u.id ∈ ids → keyMatches dayFn k u = false) := by
  simp only [clear_task_list, get_list_by_id]
  constructor
  · split
    · rename_i h
      simp [List.mem_filter]
      tauto
    · rename_i h
      simp only [not_lt, Nat.le_zero, List.length_eq_zero] at h
      simp only [Option.getD_none, List.not_mem_nil, false_iff]
      intro ⟨h1, h2, h3⟩
      have : t ∈ (List.filter (fun t => decide (t.id ∈ ids)) store).filter
          (keyMatches dayFn k) := by
        simp [List.mem_filter]
        tauto
      rw [h] at this
      exact absurd this (List.not_mem_nil t)
  · split
    · rename_i h
      simp only [reduceCtorEq, false_iff]
      intro hall
      obtain ⟨u, hu⟩ := List.exists_mem_of_ne_nil _ (List.ne_nil_of_length_pos h)
      simp [List.mem_filter] at hu
      exact absurd hu.2.1 (by simp [hall u hu.1 hu.2.2])
    · rename_i h
      simp only [not_lt, Nat.le_zero, List.length_eq_zero, List.filter_eq_nil_iff] at h
      simp only [true_iff]
      intro u hu hid
      have := h u (by simp [List.mem_filter]; exact ⟨hu, hid⟩)
      simpa using this

/-! ## Write-shape lemmas for the edit handler -/

theorem stopPhase_writes_cases (parse : LStr → Option Int) (now : Int) (task : TaskEntry)
    (sp : StartPhase) (a b : LStr) (w : WriteOp) :
    w ∈ (stopPhase parse now task sp a b).writes →
      (∃ t, w = .updStop task.id t) ∨ (∃ t, w = .updStart task.id t) := by
  unfold stopPhase
  repeat' split
  all_goals simp_all
  all_goals tauto

theorem stopPhase_no_start (parse : LStr → Option Int) (now : Int) (task : TaskEntry)
    (sp : StartPhase) (a b : LStr) (h : sp.startSuccessful = false) (t : Int) (i : Int) :
    WriteOp.updStart i t ∉ (stopPhase parse now task sp a b).writes := by
  unfold stopPhase
  repeat' split
  all_goals simp_all

theorem startOnlyPhase_writes_cases (task : TaskEntry) (sp : StartPhase) (stp : StopPhase)
    (w : WriteOp) :
    w ∈ (startOnlyPhase task sp stp).writes → ∃ t, w = .updStart task.id t := by
  unfold startOnlyPhase
  repeat' split
  all_goals simp_all

theorem mem_namePhase (id : Int) (n o : LStr) (w : WriteOp) :
    w ∈ namePhase id n o ↔ (n ≠ o ∧ w = .updName id n) := by
  unfold namePhase
  split
  all_goals simp_all

theorem mem_tagsPhase (id : Int) (n o : LStr) (w : WriteOp) :
    w ∈ tagsPhase id n o ↔ (n ≠ o ∧ w = .updTags id (renderTags (normalizeTags n))) := by
  unfold tagsPhase
  split
  all_goals simp_all

theorem mem_editResponse_writes (parse : LStr → Option Int) (now : Int) (task : TaskEntry)
    (d : Dialog) (w : WriteOp) :
    w ∈ (editResponse parse now task d).writes ↔
      (w ∈ (stopPhase parse now task (startPhase parse now d.startText d.origStart)
              d.stopText d.origStop).writes ∨
       w ∈ namePhase task.id d.nameText d.origName ∨
       w ∈ tagsPhase task.id d.tagsText d.origTags ∨
       w ∈ (startOnlyPhase task (startPhase parse now d.startText d.origStart)
              (stopPhase parse now task (startPhase parse now d.startText d.origStart)
                d.stopText d.origStop)).writes) := by
  simp [editResponse, List.mem_append]

/-! ## C2: atomicity of a single-entry edit -/

/-- C2: counterexample.  The start text is unparseable (`InvalidFormat` is
reported, the dialog stays open), yet the name edit in the same patch is
committed to the store. -/
theorem c2_counterexample :
    (editResponse parseNone 0 ⟨1, str "n", str "", 0, 0⟩
        ⟨str "bad", str "p", str "m", str "t", str "orig", str "p", str "n", str "t"⟩).instructions
      = true ∧
    (editResponse parseNone 0 ⟨1, str "n", str "", 0, 0⟩
        ⟨str "bad", str "p", str "m", str "t", str "orig", str "p", str "n", str "t"⟩).writes
      = [.updName 1 (str "m")] ∧
    (editResponse parseNone 0 ⟨1, str "n", str "", 0, 0⟩
        ⟨str "bad", str "p", str "m", str "t", str "orig", str "p", str "n", str "t"⟩).close
      = false := by
  decide

/-- C2 (amended): the patch is not atomic.  The name (resp. tags) field is
committed iff its text differs from the captured original, independently of
whether any time-validation rule was violated in the same patch. -/
theorem c2_amended_independent_fields (parse : LStr → Option Int) (now : Int)
    (task : TaskEntry) (d : Dialog) :
    (WriteOp.updName task.id d.nameText ∈ (editResponse parse now task d).writes ↔
      d.nameText ≠ d.origName) ∧
    (WriteOp.updTags task.id (renderTags (normalizeTags d.tagsText)) ∈
        (editResponse parse now task d).writes ↔
      d.tagsText ≠ d.origTags) := by
  constructor
  · rw [mem_editResponse_writes]
    constructor
    · rintro (h | h | h | h)
      · rcases stopPhase_writes_cases _ _ _ _ _ _ _ h with ⟨t, ht⟩ | ⟨t, ht⟩ <;> simp at ht
      · exact ((mem_namePhase _ _ _ _).mp h).1
      · exact absurd ((mem_tagsPhase _ _ _ _).mp h).2 (by simp)
      · obtain ⟨t, ht⟩ := startOnlyPhase_writes_cases _ _ _ _ h
        simp at ht
    · intro h
      exact Or.inr (Or.inl ((mem_namePhase _ _ _ _).mpr ⟨h, rfl⟩))
  · rw [mem_editResponse_writes]
    constructor
    · rintro (h | h | h | h)
      · rcases stopPhase_writes_cases _ _ _ _ _ _ _ h with ⟨t, ht⟩ | ⟨t, ht⟩ <;> simp at ht
      · exact absurd ((mem_namePhase _ _ _ _).mp h).2 (by simp)
      · exact ((mem_tagsPhase _ _ _ _).mp h).1
      · obtain ⟨t, ht⟩ := startOnlyPhase_writes_cases _ _ _ _ h
        simp at ht
    · intro h
      exact Or.inr (Or.inr (Or.inl ((mem_tagsPhase _ _ _ _).mpr ⟨h, rfl⟩)))

theorem startOnlyPhase_writes_empty (task : TaskEntry) (sp : StartPhase) (stp : StopPhase)
    (h : sp.startSuccessful = false) : (startOnlyPhase task sp stp).writes = [] := by
  unfold startOnlyPhase
  simp [h]

theorem editResponse_no_time_writes (parse : LStr → Option Int) (now : Int)
    (task : TaskEntry) (d : Dialog)
    (h1 : (stopPhase parse now task (startPhase parse now d.startText d.origStart)
            d.stopText d.origStop).writes = [])
    (h2 : (startOnlyPhase task (startPhase parse now d.startText d.origStart)
            (stopPhase parse now task (startPhase parse now d.startText d.origStart)
              d.stopText d.origStop)).writes = [])
    (i u : Int) :
    WriteOp.updStart i u ∉ (editResponse parse now task d).writes ∧
    WriteOp.updStop i u ∉ (editResponse parse now task d).writes := by
  constructor <;> rw [mem_editResponse_writes] <;> rintro (h | h | h | h) <;>
    simp_all [mem_namePhase, mem_tagsPhase]

/-! ## C4: future-time rejection -/

/-- C4: counterexample.  Start and stop are edited together; the start (10) is
valid, the stop (100) is later than now (50), yet both writes are issued and
no `FutureTime` error is reported: the future check on the stop is skipped in
the both-edited path (lines 360-366). -/
theorem c4_counterexample :
    editResponse c4Parse 50 ⟨1, str "n", str "", 0, 20⟩
        ⟨str "S", str "T", str "n", str "g", str "oS", str "oT", str "n", str "g"⟩ =
      ⟨[.updStop 1 100, .updStart 1 10], false, false, false, true⟩ ∧
    c4Parse (str "T") = some 100 ∧ (50 : Int) - 100 < 0 := by
  decide

/-- C4 (amended): a future start is always rejected with `FutureTime` and no
start write is issued; a future stop is rejected with `FutureTime` only when
the start is not simultaneously edited — in the both-edited path the stop is
not future-checked (see the counterexample). -/
theorem c4_amended_future_checks (parse : LStr → Option Int) (now : Int)
    (task : TaskEntry) (d : Dialog) (t ts : Int) :
    (d.startText ≠ d.origStart → parse d.startText = some t → now - t < 0 →
      (editResponse parse now task d).futureError = true ∧
      ∀ i u, WriteOp.updStart i u ∉ (editResponse parse now task d).writes) ∧
    (d.startText = d.origStart → d.stopText ≠ d.origStop → parse d.stopText = some ts →
      now - ts < 0 →
      (editResponse parse now task d).futureError = true ∧
      ∀ i u, WriteOp.updStop i u ∉ (editResponse parse now task d).writes) := by
  constructor
  · intro h1 h2 h3
    have hsp : startPhase parse now d.startText d.origStart =
        ⟨false, true, true, false, now⟩ := by
      simp [startPhase, h1, h2, h3]
    constructor
    · simp [editResponse, hsp]
    · intro i u hmem
      rw [mem_editResponse_writes] at hmem
      rcases hmem with h | h | h | h
      · exact stopPhase_no_start parse now task _ _ _ (by rw [hsp]) u i h
      · simp [mem_namePhase] at h
      · simp [mem_tagsPhase] at h
      · rw [startOnlyPhase_writes_empty task _ _ (by rw [hsp])] at h
        exact absurd h (List.not_mem_nil _)
  · intro h1 h2 h3 h4
    have hsp : startPhase parse now d.startText d.origStart =
        ⟨false, false, false, false, now⟩ := by
      simp [startPhase, h1]
    have hstp : stopPhase parse now task (startPhase parse now d.startText d.origStart)
        d.stopText d.origStop = ⟨[], false, true, false, true, true⟩ := by
      rw [hsp]
      simp [stopPhase, h2, h3, h4]
    constructor
    · simp [editResponse, hstp]
    · intro i u hmem
      rw [mem_editResponse_writes] at hmem
      rcases hmem with h | h | h | h
      · rw [hstp] at h
        exact absurd h (List.not_mem_nil _)
      · simp [mem_namePhase] at h
      · simp [mem_tagsPhase] at h
      · rw [startOnlyPhase_writes_empty task _ _ (by rw [hsp])] at h
        exact absurd h (List.not_mem_nil _)

/-- C4: witness for the amended theorem (future start, edited alone). -/
theorem c4_amended_witness :
    (str "S" ≠ str "o" ∧ c4Parse (str "S") = some 10 ∧ (5 : Int) - 10 < 0) ∧
    ((editResponse c4Parse 5 ⟨1, str "n", str "", 0, 20⟩
        ⟨str "S", str "p", str "n", str "g", str "o", str "p", str "n", str "g"⟩).futureError
        = true ∧
     ∀ i u, WriteOp.updStart i u ∉ (editResponse c4Parse 5 ⟨1, str "n", str "", 0, 20⟩
        ⟨str "S", str "p", str "n", str "g", str "o", str "p", str "n", str "g"⟩).writes) :=
  ⟨⟨by decide, by decide, by decide⟩,
   (c4_amended_future_checks c4Parse 5 ⟨1, str "n", str "", 0, 20⟩
      ⟨str "S", str "p", str "n", str "g", str "o", str "p", str "n", str "g"⟩ 10 0).1
     (by decide) (by decide) (by decide)⟩

/-! ## C5: range validation -/

/-- C5: counterexample.  Both times are edited and both parse; the new stop
(10) is earlier than the new start (100).  No time write is issued, but no
`RangeInvalid` error is reported either: the dialog closes silently, so the
violation is not "rejected with RangeInvalid" as claimed. -/
theorem c5_counterexample :
    editResponse c5Parse 200 ⟨1, str "n", str "", 0, 50⟩
        ⟨str "S", str "T", str "n", str "g", str "oS", str "oT", str "n", str "g"⟩ =
      ⟨[], false, false, false, true⟩ ∧
    c5Parse (str "S") = some 100 ∧ c5Parse (str "T") = some 10 ∧ (10 : Int) - 100 < 0 := by
  decide

/-- C5 (amended): the resolved-range rule prevents every time write, and a
violation is reported with `RangeInvalid` when exactly one of the two times is
edited (checked against the stored counterpart); when both are edited the new
pair is checked against each other before either write, but a violating pair
is silent — no `RangeInvalid` is reported. -/
theorem c5_amended_range_checks (parse : LStr → Option Int) (now : Int)
    (task : TaskEntry) (d : Dialog) (s ts : Int) :
    (d.startText ≠ d.origStart → parse d.startText = some s → ¬now - s < 0 →
     d.stopText ≠ d.origStop → parse d.stopText = some ts → ts - s < 0 →
      (∀ i u, WriteOp.updStart i u ∉ (editResponse parse now task d).writes ∧
        WriteOp.updStop i u ∉ (editResponse parse now task d).writes) ∧
      (editResponse parse now task d).timeError = false) ∧
    (d.startText = d.origStart → d.stopText ≠ d.origStop → parse d.stopText = some ts →
     ¬now - ts < 0 → ts - task.start_time < 0 →
      (editResponse parse now task d).timeError = true ∧
      ∀ i u, WriteOp.updStart i u ∉ (editResponse parse now task d).writes ∧
        WriteOp.updStop i u ∉ (editResponse parse now task d).writes) ∧
    (d.startText ≠ d.origStart → parse d.startText = some s → ¬now - s < 0 →
     d.stopText = d.origStop → task.stop_time - s < 0 →
      (editResponse parse now task d).timeError = true ∧
      ∀ i u, WriteOp.updStart i u ∉ (editResponse parse now task d).writes ∧
        WriteOp.updStop i u ∉ (editResponse parse now task d).writes) := by
  refine ⟨?_, ?_, ?_⟩
  · intro h1 h2 h3 h4 h5 h6
    have hsp : startPhase parse now d.startText d.origStart =
        ⟨false, false, false, true, s⟩ := by
      simp [startPhase, h1, h2, h3]
    have hstp : stopPhase parse now task (startPhase parse now d.startText d.origStart)
        d.stopText d.origStop = ⟨[], false, false, false, false, true⟩ := by
      rw [hsp]
      simp [stopPhase, h4, h5]
      omega
    have hso : (startOnlyPhase task (startPhase parse now d.startText d.origStart)
        (stopPhase parse now task (startPhase parse now d.startText d.origStart)
          d.stopText d.origStop)).writes = [] := by
      rw [hstp, hsp]
      simp [startOnlyPhase]
    refine ⟨fun i u => editResponse_no_time_writes parse now task d (by rw [hstp]) hso i u, ?_⟩
    simp only [editResponse]
    rw [hstp, hsp]
    simp [startOnlyPhase]
  · intro h1 h2 h3 h4 h5
    have hsp : startPhase parse now d.startText d.origStart =
        ⟨false, false, false, false, now⟩ := by
      simp [startPhase, h1]
    have hstp : stopPhase parse now task (startPhase parse now d.startText d.origStart)
        d.stopText d.origStop = ⟨[], false, false, true, true, true⟩ := by
      rw [hsp]
      simp [stopPhase, h2, h3, h4]
      omega
    refine ⟨by simp [editResponse, hstp], fun i u => ?_⟩
    exact editResponse_no_time_writes parse now task d (by rw [hstp])
      (startOnlyPhase_writes_empty task _ _ (by rw [hsp])) i u
  · intro h1 h2 h3 h4 h5
    have hsp : startPhase parse now d.startText d.origStart =
        ⟨false, false, false, true, s⟩ := by
      simp [startPhase, h1, h2, h3]
    have hstp : stopPhase parse now task (startPhase parse now d.startText d.origStart)
        d.stopText d.origStop = ⟨[], false, false, false, false, false⟩ := by
      simp [stopPhase, h4]
    have hcond : ¬task.stop_time - s ≥ 0 := by omega
    have hso : startOnlyPhase task ⟨false, false, false, true, s⟩
        ⟨[], false, false, false, false, false⟩ = ⟨[], true, true⟩ := by
      simp [startOnlyPhase, hcond]
    refine ⟨?_, fun i u => ?_⟩
    · simp only [editResponse]
      rw [hstp, hsp, hso]
      rfl
    · exact editResponse_no_time_writes parse now task d (by rw [hstp])
        (by rw [hstp, hsp, hso]) i u

/-- C5: witness for the amended theorem (stop edited alone, earlier than the
stored start: rejected with `RangeInvalid`, no time write). -/
theorem c5_amended_witness :
    (str "o" = str "o" ∧ str "T" ≠ str "oT" ∧ c5Parse (str "T") = some 10 ∧
      ¬(200 : Int) - 10 < 0 ∧ (10 : Int) - 50 < 0) ∧
    ((editResponse c5Parse 200 ⟨1, str "n", str "", 50, 60⟩
        ⟨str "o", str "T", str "n", str "g", str "o", str "oT", str "n", str "g"⟩).timeError
        = true ∧
     ∀ i u, WriteOp.updStart i u ∉ (editResponse c5Parse 200 ⟨1, str "n", str "", 50, 60⟩
        ⟨str "o", str "T", str "n", str "g", str "o", str "oT", str "n", str "g"⟩).writes ∧
       WriteOp.updStop i u ∉ (editResponse c5Parse 200 ⟨1, str "n", str "", 50, 60⟩
        ⟨str "o", str "T", str "n", str "g", str "o", str "oT", str "n", str "g"⟩).writes) :=
  ⟨⟨rfl, by decide, by decide, by decide, by decide⟩,
   (c5_amended_range_checks c5Parse 200 ⟨1, str "n", str "", 50, 60⟩
      ⟨str "o", str "T", str "n", str "g", str "o", str "oT", str "n", str "g"⟩ 0 10).2.1
     rfl (by decide) (by decide) (by decide) (by decide)⟩

/-! ## C7: group rename -/

/-- C7: a group rename whose extracted task name (first `#`-fragment of the
trimmed input) is empty fails with the name-required outcome and issues no
store write; otherwise `update_task_name` and `update_tags` (normalized) are
issued for every id in the group. -/
theorem c7_rename_group (ids : List Int) (text : LStr) :
    (renameHead text = [] → renameGroup ids text = .error ()) ∧
    (renameHead text ≠ [] →
      renameGroup ids text = .ok (renameWrites ids text) ∧
      ∀ i ∈ ids, WriteOp.updName i (trimStr (renameHead text)) ∈ renameWrites ids text ∧
        WriteOp.updTags i (renameTagList text) ∈ renameWrites ids text) := by
  constructor
  · intro h
    simp [renameGroup, h]
  · intro h
    refine ⟨by simp [renameGroup, h], fun i hi => ⟨?_, ?_⟩⟩
    · simp only [renameWrites, List.mem_flatMap]
      exact ⟨i, hi, by simp⟩
    · simp only [renameWrites, List.mem_flatMap]
      exact ⟨i, hi, by simp⟩

/-- C7: witness, exercising both the empty-name rejection and a successful
rename of a one-member group. -/
theorem c7_rename_group_witness :
    (renameHead (str "#x") = [] ∧ renameGroup [3] (str "#x") = .error ()) ∧
    (renameHead (str " a #B") ≠ [] ∧
      renameGroup [3] (str " a #B") = .ok (renameWrites [3] (str " a #B")) ∧
      WriteOp.updName 3 (trimStr (renameHead (str " a #B"))) ∈
        renameWrites [3] (str " a #B") ∧
      WriteOp.updTags 3 (renameTagList (str " a #B")) ∈ renameWrites [3] (str " a #B")) :=
  ⟨⟨by decide, (c7_rename_group [3] (str "#x")).1 (by decide)⟩,
   ⟨by decide, ((c7_rename_group [3] (str " a #B")).2 (by decide)).1,
     (((c7_rename_group [3] (str " a #B")).2 (by decide)).2 3 (by decide)).1,
     (((c7_rename_group [3] (str " a #B")).2 (by decide)).2 3 (by decide)).2⟩⟩

/-! ## C10: no emptiness check on single-entry name edits -/

/-- C10: in a single-entry edit the task name is written whenever its text
differs from the stored name, with no emptiness check (so an empty name is
persisted), while the add-similar creation path rejects a blank name and
issues no creation. -/
theorem c10_name_unchecked_on_edit :
    (∀ (parse : LStr → Option Int) (now : Int) (task : TaskEntry) (d : Dialog),
      d.nameText ≠ d.origName →
      WriteOp.updName task.id d.nameText ∈ (editResponse parse now task d).writes) ∧
    (∀ (parse : LStr → Option Int) (now : Int) (inp : AddInput),
      trimStr inp.nameText = [] →
      (addSimilar parse now inp).nameError = true ∧
      (addSimilar parse now inp).write = none) := by
  constructor
  · intro parse now task d h
    rw [mem_editResponse_writes]
    exact Or.inr (Or.inl ((mem_namePhase _ _ _ _).mpr ⟨h, rfl⟩))
  · intro parse now inp h
    simp [addSimilar, h]

/-- C10: witness — an empty task name proposed via the edit dialog is written
to the store, and a blank name through add-similar is rejected. -/
theorem c10_name_unchecked_witness :
    (str "" ≠ str "x" ∧
      WriteOp.updName 1 (str "") ∈ (editResponse parseNone 0 ⟨1, str "x", str "", 0, 0⟩
        ⟨str "s", str "p", str "", str "g", str "s", str "p", str "x", str "g"⟩).writes) ∧
    (trimStr (str "  ") = [] ∧
      (addSimilar parseNone 0 ⟨str "  ", str "g", str "s", str "p"⟩).nameError = true ∧
      (addSimilar parseNone 0 ⟨str "  ", str "g", str "s", str "p"⟩).write = none) :=
  ⟨⟨by decide, c10_name_unchecked_on_edit.1 parseNone 0 ⟨1, str "x", str "", 0, 0⟩
      ⟨str "s", str "p", str "", str "g", str "s", str "p", str "x", str "g"⟩ (by decide)⟩,
   ⟨by decide, c10_name_unchecked_on_edit.2 parseNone 0
      ⟨str "  ", str "g", str "s", str "p"⟩ (by decide)⟩⟩

/-! ## String lemmas: lowercase table -/

theorem lookup_mem {β : Type} (l : List (Char × β)) (k : Char) (v : β)
    (h : l.lookup k = some v) : (k, v) ∈ l := by
  induction l with
  | nil => simp [List.lookup] at h
  | cons p t ih =>
    rw [List.lookup] at h
    split at h
    · rename_i heq
      simp only [Option.some.injEq] at h
      subst h
      simp only [beq_iff_eq] at heq
      subst heq
      exact List.mem_cons_self _ _
    · exact List.mem_cons_of_mem _ (ih h)

theorem lowerPairs_props : ∀ p ∈ lowerPairs, p.1.isWhitespace = false ∧
    p.2.isWhitespace = false ∧ p.2 ≠ '#' ∧ lowerPairs.lookup p.2 = none := by
  decide

theorem lowerChar_lowerChar (c : Char) : lowerChar (lowerChar c) = lowerChar c := by
  unfold lowerChar
  cases h : lowerPairs.lookup c with
  | none => simp [h]
  | some d => simp [(lowerPairs_props _ (lookup_mem _ _ _ h)).2.2.2]

theorem lowerChar_ws (c : Char) : (lowerChar c).isWhitespace = c.isWhitespace := by
  unfold lowerChar
  cases h : lowerPairs.lookup c with
  | none => simp
  | some d =>
    have hp := lowerPairs_props _ (lookup_mem _ _ _ h)
    simp only [Option.getD_some]
    rw [hp.2.1, hp.1]

theorem lowerChar_hash (c : Char) (h : lowerChar c = '#') : c = '#' := by
  unfold lowerChar at h
  cases hl : lowerPairs.lookup c with
  | none =>
    rw [hl] at h
    simpa using h
  | some d =>
    rw [hl] at h
    simp only [Option.getD_some] at h
    exact absurd h (lowerPairs_props _ (lookup_mem _ _ _ hl)).2.2.1

theorem lowerStr_lowerStr (l : LStr) : lowerStr (lowerStr l) = lowerStr l := by
  simp only [lowerStr, List.map_map]
  exact congrFun (congrArg List.map (funext lowerChar_lowerChar)) l

/-! ## String lemmas: trimming -/

theorem dropWhile_head_false {p : Char → Bool} (l : LStr) (c : Char) (t : LStr)
    (h : l.dropWhile p = c :: t) : p c = false := by
  induction l with
  | nil => simp at h
  | cons a l ih =>
    rw [List.dropWhile_cons] at h
    split at h
    · exact ih h
    · rename_i ha
      cases h
      simpa using ha

theorem dropWhile_fix_of_head {p : Char → Bool} (l : LStr)
    (h : ∀ c t, l = c :: t → p c = false) : l.dropWhile p = l := by
  cases l with
  | nil => rfl
  | cons c t => rw [List.dropWhile_cons, h c t rfl]; simp

theorem dropWhile_append_pos {p : Char → Bool} (l l₂ : LStr) (h : l.dropWhile p ≠ []) :
    (l ++ l₂).dropWhile p = l.dropWhile p ++ l₂ := by
  induction l with
  | nil => simp at h
  | cons a l ih =>
    rw [List.cons_append, List.dropWhile_cons, List.dropWhile_cons]
    split
    · rename_i ha
      rw [List.dropWhile_cons, if_pos ha] at h
      exact ih h
    · simp

theorem trimRightWS_sublist (l : LStr) : (trimRightWS l).Sublist l := by
  induction l with
  | nil => simp [trimRightWS]
  | cons c t ih =>
    rw [trimRightWS]
    split
    · split
      · exact List.nil_sublist _
      · exact (List.singleton_sublist.mpr (List.mem_cons_self c t))
    · exact List.Sublist.cons₂ c ih

theorem trimRightWS_idem (l : LStr) : trimRightWS (trimRightWS l) = trimRightWS l := by
  induction l with
  | nil => rfl
  | cons c t ih =>
    rw [trimRightWS]
    split
    · split
      · rfl
      · rename_i hc
        rw [trimRightWS]
        simp [trimRightWS, hc]
    · rename_i hne
      rw [trimRightWS, ih]
      rw [if_neg hne]

theorem trimRightWS_head? (l : LStr) (c : Char) (h : (trimRightWS l).head? = some c) :
    l.head? = some c := by
  cases l with
  | nil => simp [trimRightWS] at h
  | cons a t =>
    rw [trimRightWS] at h
    split at h
    · split at h
      · simp at h
      · simpa using h
    · simpa using h

theorem trimRightWS_append_right (x y : LStr) (h : trimRightWS y ≠ []) :
    trimRightWS (x ++ y) = x ++ trimRightWS y := by
  induction x with
  | nil => simp
  | cons c x ih =>
    rw [List.cons_append, trimRightWS, ih]
    have : ¬(x ++ trimRightWS y).isEmpty := by
      simp [List.isEmpty_iff]
      intro _
      exact h
    rw [if_neg this]
    simp

theorem trimRightWS_space (l : LStr) : trimRightWS (l ++ [' ']) = trimRightWS l := by
  induction l with
  | nil => rfl
  | cons c t ih => rw [List.cons_append, trimRightWS, ih, trimRightWS]

theorem trimStr_idem (l : LStr) : trimStr (trimStr l) = trimStr l := by
  unfold trimStr
  have hfix : (trimRightWS (l.dropWhile Char.isWhitespace)).dropWhile Char.isWhitespace =
      trimRightWS (l.dropWhile Char.isWhitespace) := by
    apply dropWhile_fix_of_head
    intro c t hct
    have hc : (trimRightWS (l.dropWhile Char.isWhitespace)).head? = some c := by
      rw [hct]; rfl
    have := trimRightWS_head? _ _ hc
    cases hd : l.dropWhile Char.isWhitespace with
    | nil => rw [hd] at this; simp at this
    | cons a t' =>
      rw [hd] at this
      simp only [List.head?_cons, Option.some.injEq] at this
      subst this
      exact dropWhile_head_false l _ _ hd
  rw [hfix, trimRightWS_idem]

theorem trimStr_append_space (l : LStr) : trimStr (l ++ [' ']) = trimStr l := by
  unfold trimStr
  by_cases h : l.dropWhile Char.isWhitespace = []
  · have hall : ∀ x ∈ l, x.isWhitespace = true := List.dropWhile_eq_nil_iff.mp h
    have h2 : (l ++ [' ']).dropWhile Char.isWhitespace = [] := by
      rw [List.dropWhile_eq_nil_iff]
      intro x hx
      rcases List.mem_append.mp hx with hx | hx
      · exact hall x hx
      · simp at hx
        subst hx
        decide
    rw [h, h2]
  · rw [dropWhile_append_pos l [' '] h, trimRightWS_space]

theorem mem_trimStr (a : Char) (l : LStr) (h : a ∈ trimStr l) : a ∈ l :=
  List.Sublist.mem (List.Sublist.mem h (trimRightWS_sublist _))
    (List.dropWhile_sublist _)

theorem trimRightWS_lower (l : LStr) : trimRightWS (lowerStr l) = lowerStr (trimRightWS l) := by
  induction l with
  | nil => rfl
  | cons c t ih =>
    show trimRightWS (lowerChar c :: lowerStr t) = _
    rw [trimRightWS, ih, trimRightWS]
    have hemp : (lowerStr (trimRightWS t)).isEmpty = (trimRightWS t).isEmpty := by
      cases trimRightWS t <;> rfl
    rw [hemp, lowerChar_ws]
    split
    · split
      · rfl
      · rfl
    · rfl

theorem trimStr_lower (l : LStr) : trimStr (lowerStr l) = lowerStr (trimStr l) := by
  unfold trimStr
  have hmap : (lowerStr l).dropWhile Char.isWhitespace =
      lowerStr (l.dropWhile Char.isWhitespace) := by
    rw [lowerStr, List.dropWhile_map]
    have : Char.isWhitespace ∘ lowerChar = Char.isWhitespace := funext lowerChar_ws
    rw [this, lowerStr]
  rw [hmap, trimRightWS_lower]

/-! ## String lemmas: uniqueness and membership -/

theorem mem_uniqueAux (seen l : List LStr) (x : LStr) (h : x ∈ uniqueAux seen l) :
    x ∈ l := by
  induction l generalizing seen with
  | nil => simp [uniqueAux] at h
  | cons a l ih =>
    rw [uniqueAux] at h
    split at h
    · exact List.mem_cons_of_mem _ (ih _ h)
    · rcases List.mem_cons.mp h with h | h
      · exact h ▸ List.mem_cons_self _ _
      · exact List.mem_cons_of_mem _ (ih _ h)

theorem mem_uniqueFirst (l : List LStr) (x : LStr) (h : x ∈ uniqueFirst l) : x ∈ l :=
  mem_uniqueAux [] l x h

/-! ## Pieces of `splitOn` -/

theorem splitOnP_pieces_false (p : Char → Bool) (m : LStr) :
    ∀ q ∈ m.splitOnP p, ∀ c ∈ q, p c = false := by
  induction m with
  | nil =>
    intro q hq c hc
    simp [List.splitOnP_nil] at hq
    subst hq
    simp at hc
  | cons a m ih =>
    intro q hq c hc
    rw [List.splitOnP_cons] at hq
    split at hq
    · rcases List.mem_cons.mp hq with rfl | hq
      · simp at hc
      · exact ih q hq c hc
    · rename_i ha
      cases hsp : m.splitOnP p with
      | nil => exact absurd hsp (List.splitOnP_ne_nil p m)
      | cons h0 tl =>
        rw [hsp, List.modifyHead] at hq
        rcases List.mem_cons.mp hq with rfl | hq
        · rcases List.mem_cons.mp hc with rfl | hc
          · simpa using ha
          · exact ih h0 (hsp ▸ List.mem_cons_self _ _) c hc
        · exact ih q (hsp ▸ List.mem_cons_of_mem _ hq) c hc

theorem splitOnP_pieces_mem (p : Char → Bool) (m : LStr) :
    ∀ q ∈ m.splitOnP p, ∀ c ∈ q, c ∈ m := by
  induction m with
  | nil =>
    intro q hq c hc
    simp [List.splitOnP_nil] at hq
    subst hq
    simp at hc
  | cons a m ih =>
    intro q hq c hc
    rw [List.splitOnP_cons] at hq
    split at hq
    · rcases List.mem_cons.mp hq with rfl | hq
      · simp at hc
      · exact List.mem_cons_of_mem _ (ih q hq c hc)
    · cases hsp : m.splitOnP p with
      | nil => exact absurd hsp (List.splitOnP_ne_nil p m)
      | cons h0 tl =>
        rw [hsp, List.modifyHead] at hq
        rcases List.mem_cons.mp hq with rfl | hq
        · rcases List.mem_cons.mp hc with rfl | hc
          · exact List.mem_cons_self _ _
          · exact List.mem_cons_of_mem _ (ih h0 (hsp ▸ List.mem_cons_self _ _) c hc)
        · exact List.mem_cons_of_mem _ (ih q (hsp ▸ List.mem_cons_of_mem _ hq) c hc)

theorem splitOn_pieces_no_hash (m : LStr) (q : LStr) (hq : q ∈ m.splitOn '#') :
    '#' ∉ q := by
  intro hc
  have := splitOnP_pieces_false (· == '#') m q hq '#' hc
  simp at this

theorem splitOn_pieces_mem (m : LStr) (q : LStr) (hq : q ∈ m.splitOn '#') :
    ∀ c ∈ q, c ∈ m :=
  splitOnP_pieces_mem (· == '#') m q hq

/-! ## Invariants of the normalized tag fragments -/

theorem normalizeTags_elem_props (raw : LStr) (t : LStr) (h : t ∈ normalizeTags raw) :
    t ≠ [] ∧ trimStr t = t ∧ lowerStr t = t ∧ '#' ∉ t := by
  simp only [normalizeTags, List.mem_map] at h
  obtain ⟨u, hu, rfl⟩ := h
  have hu' := mem_uniqueFirst _ _ hu
  rw [List.mem_filter] at hu'
  obtain ⟨humem, hune⟩ := hu'
  simp only [decide_not, ne_eq, Bool.not_eq_eq_eq_not, Bool.not_true, decide_eq_false_iff_not]
    at hune
  rw [List.mem_map] at humem
  obtain ⟨p, hp, rfl⟩ := humem
  refine ⟨?_, ?_, lowerStr_lowerStr _, ?_⟩
  · intro hnil
    rw [lowerStr] at hnil
    rw [List.map_eq_nil_iff] at hnil
    exact hune hnil
  · rw [trimStr_lower, trimStr_idem]
  · intro hhash
    rw [lowerStr, List.mem_map] at hhash
    obtain ⟨c, hc, hlc⟩ := hhash
    have hch := lowerChar_hash c hlc
    subst hch
    exact splitOn_pieces_no_hash _ p hp (mem_trimStr _ _ hc)

/-! ## C3: tag normalization -/

/-- C3: counterexample.  Deduplication runs before lowercasing with exact
string equality, so "Work" and "work" both survive and normalize to a
duplicated ["work", "work"], not the single ["work"] the claim requires. -/
theorem c3_counterexample :
    normalizeTags (str "Work #work") = [str "work", str "work"] ∧
    ¬(normalizeTags (str "Work #work")).Nodup ∧
    normalizeTags (str "Work #work") ≠ [str "work"] := by
  decide

/-- C3 (amended): normalization splits on `#`, trims, drops empties,
deduplicates preserving first-seen order with EXACT (case-sensitive)
comparison before lowercasing, then lowercases; every surviving fragment is
nonempty, trimmed and lowercase, but fragments equal only up to case survive
as exact duplicates ("Work #work" gives ["work", "work"]).  The claim's own
example "  Work ## urgent #Work" still normalizes to ["work", "urgent"]. -/
theorem c3_amended_normalization :
    (∀ raw t, t ∈ normalizeTags raw → t ≠ [] ∧ trimStr t = t ∧ lowerStr t = t) ∧
    normalizeTags (str "  Work ## urgent #Work") = [str "work", str "urgent"] ∧
    normalizeTags (str "Work #work") = [str "work", str "work"] := by
  refine ⟨?_, by decide, by decide⟩
  intro raw t ht
  have := normalizeTags_elem_props raw t ht
  exact ⟨this.1, this.2.1, this.2.2.1⟩

/-- C3: witness for the amended theorem at a concrete input. -/
theorem c3_amended_witness :
    str "x" ∈ normalizeTags (str " X ") ∧
    (str "x" ≠ [] ∧ trimStr (str "x") = str "x" ∧ lowerStr (str "x") = str "x") :=
  ⟨by decide, c3_amended_normalization.1 (str " X ") (str "x") (by decide)⟩

/-! ## Round-trip machinery for C9 -/

/-- The pieces that splitting the rendered string on `#` recovers: every
fragment except the last carries the space of the `" #"` separator. -/
def padSep : List LStr → List LStr
  | [] => []
  | [a] => [a]
  | a :: rest => (a ++ [' ']) :: padSep rest

theorem trimmed_head_not_ws (a : LStr) (c : Char) (t : LStr) (ha : trimStr a = a)
    (he : a = c :: t) : c.isWhitespace = false := by
  by_contra hc
  rw [Bool.not_eq_false] at hc
  have h1 : a.dropWhile Char.isWhitespace = t.dropWhile Char.isWhitespace := by
    rw [he, List.dropWhile_cons, if_pos hc]
  have h2 : (trimStr a).Sublist t := by
    rw [trimStr, h1]
    exact (trimRightWS_sublist _).trans (List.dropWhile_sublist _)
  rw [ha, he] at h2
  have := h2.length_le
  simp at this

theorem renderTags_head (c : Char) (t : LStr) (rest : List LStr) :
    ∃ w, renderTags ((c :: t) :: rest) = c :: w := by
  cases rest with
  | nil => exact ⟨t, rfl⟩
  | cons b r => exact ⟨t ++ ' ' :: '#' :: renderTags (b :: r), rfl⟩

theorem renderTags_ne_nil (a : LStr) (rest : List LStr) (ha : a ≠ []) :
    renderTags (a :: rest) ≠ [] := by
  cases a with
  | nil => exact absurd rfl ha
  | cons c t =>
    obtain ⟨w, hw⟩ := renderTags_head c t rest
    rw [hw]
    simp

theorem dropWhile_renderTags (c : Char) (t : LStr) (rest : List LStr)
    (hc : c.isWhitespace = false) :
    (renderTags ((c :: t) :: rest)).dropWhile Char.isWhitespace =
      renderTags ((c :: t) :: rest) := by
  obtain ⟨w, hw⟩ := renderTags_head c t rest
  rw [hw, List.dropWhile_cons, hc]
  simp

theorem trimRightWS_renderTags (l : List LStr)
    (h : ∀ e ∈ l, e ≠ [] ∧ trimStr e = e) (hl : l ≠ []) :
    trimRightWS (renderTags l) = renderTags l := by
  induction l with
  | nil => exact absurd rfl hl
  | cons a rest ih =>
    cases rest with
    | nil =>
      obtain ⟨hne, htr⟩ := h a (List.mem_cons_self _ _)
      cases a with
      | nil => exact absurd rfl hne
      | cons c t =>
        have hc : c.isWhitespace = false :=
          trimmed_head_not_ws _ _ _ htr rfl
        have hdw : (c :: t).dropWhile Char.isWhitespace = c :: t := by
          rw [List.dropWhile_cons, hc]
          simp
        have : trimStr (c :: t) = trimRightWS (c :: t) := by
          rw [trimStr, hdw]
        show trimRightWS (c :: t) = c :: t
        rw [← this, htr]
    | cons b r =>
      have hrec : trimRightWS (renderTags (b :: r)) = renderTags (b :: r) :=
        ih (fun e he => h e (List.mem_cons_of_mem _ he)) (by simp)
      have hbne : b ≠ [] := (h b (List.mem_cons_of_mem _ (List.mem_cons_self _ _))).1
      have hrne : renderTags (b :: r) ≠ [] := renderTags_ne_nil b r hbne
      show trimRightWS (a ++ ' ' :: '#' :: renderTags (b :: r)) = _
      have hsplit : a ++ ' ' :: '#' :: renderTags (b :: r) =
          (a ++ [' ', '#']) ++ renderTags (b :: r) := by
        simp
      rw [hsplit, trimRightWS_append_right _ _ (by rw [hrec]; exact hrne), hrec]
      rw [← hsplit]
      rfl

theorem trimStr_renderTags (l : List LStr)
    (h : ∀ e ∈ l, e ≠ [] ∧ trimStr e = e) (hl : l ≠ []) :
    trimStr (renderTags l) = renderTags l := by
  obtain ⟨a, rest, rfl⟩ := List.exists_cons_of_ne_nil hl
  obtain ⟨hne, htr⟩ := h a (List.mem_cons_self _ _)
  obtain ⟨c, t, rfl⟩ := List.exists_cons_of_ne_nil hne
  have hc : c.isWhitespace = false := trimmed_head_not_ws _ _ _ htr rfl
  rw [trimStr, dropWhile_renderTags c t rest hc]
  exact trimRightWS_renderTags _ h (by simp)

theorem splitOn_renderTags (l : List LStr) (hl : l ≠ [])
    (hx : ∀ e ∈ l, '#' ∉ e) : (renderTags l).splitOn '#' = padSep l := by
  induction l with
  | nil => exact absurd rfl hl
  | cons a rest ih =>
    cases rest with
    | nil =>
      show a.splitOn '#' = [a]
      rw [List.splitOn]
      apply List.splitOnP_eq_single
      intro x hx'
      simp only [beq_iff_eq]
      intro he
      exact hx a (List.mem_cons_self _ _) (he ▸ hx')
    | cons b r =>
      have hnosep : ∀ x ∈ a ++ [' '], ¬((x == '#') = true) := by
        intro x hx'
        simp only [beq_iff_eq]
        intro he
        subst he
        rcases List.mem_append.mp hx' with hx' | hx'
        · exact hx a (List.mem_cons_self _ _) hx'
        · simp at hx'
      have step : renderTags (a :: b :: r) = (a ++ [' ']) ++ '#' :: renderTags (b :: r) := by
        show a ++ ' ' :: '#' :: renderTags (b :: r) = _
        simp
      rw [step, List.splitOn, List.splitOnP_first _ (a ++ [' ']) hnosep '#' (by simp) _]
      show (a ++ [' ']) :: (renderTags (b :: r)).splitOn '#' = padSep (a :: b :: r)
      rw [ih (by simp) (fun e he => hx e (List.mem_cons_of_mem _ he))]
      rfl

theorem map_trimStr_padSep (l : List LStr) (h : ∀ e ∈ l, trimStr e = e) :
    (padSep l).map trimStr = l := by
  induction l with
  | nil => rfl
  | cons a rest ih =>
    cases rest with
    | nil =>
      show [trimStr a] = [a]
      rw [h a (List.mem_cons_self _ _)]
    | cons b r =>
      show trimStr (a ++ [' ']) :: (padSep (b :: r)).map trimStr = _
      rw [trimStr_append_space, h a (List.mem_cons_self _ _),
        ih (fun e he => h e (List.mem_cons_of_mem _ he))]

theorem uniqueAux_of_nodup (l : List LStr) (seen : List LStr) (h : l.Nodup)
    (hd : ∀ x ∈ l, x ∉ seen) : uniqueAux seen l = l := by
  induction l generalizing seen with
  | nil => rfl
  | cons a l ih =>
    rw [uniqueAux, if_neg (hd a (List.mem_cons_self _ _))]
    rw [ih _ (List.nodup_cons.mp h).2]
    intro x hx
    rw [List.mem_cons]
    rintro (rfl | hxs)
    · exact (List.nodup_cons.mp h).1 hx
    · exact hd x (List.mem_cons_of_mem _ hx) hxs

theorem uniqueFirst_of_nodup (l : List LStr) (h : l.Nodup) : uniqueFirst l = l :=
  uniqueAux_of_nodup l [] h (by simp)

theorem map_lowerStr_fix (l : List LStr) (h : ∀ e ∈ l, lowerStr e = e) :
    l.map lowerStr = l := by
  induction l with
  | nil => rfl
  | cons a l ih =>
    rw [List.map_cons, h a (List.mem_cons_self _ _),
      ih (fun e he => h e (List.mem_cons_of_mem _ he))]

theorem trimStr_eq_nil_of_ws (p : LStr) (h : ∀ c ∈ p, c.isWhitespace = true) :
    trimStr p = [] := by
  rw [trimStr, List.dropWhile_eq_nil_iff.mpr h]
  rfl

/-! ## C9: idempotence through the storage rendering -/

/-- C9: counterexample.  Because dedup runs before lowercasing (C3),
`normalize "Work #work"` is `["work", "work"]`; rendering gives
`"work #work"` and re-normalizing dedups the now-identical fragments to
`["work"]`, so `normalize (render (normalize x)) ≠ normalize x`. -/
theorem c9_counterexample :
    normalizeTags (renderTags (normalizeTags (str "Work #work"))) ≠
      normalizeTags (str "Work #work") ∧
    normalizeTags (renderTags (normalizeTags (str "Work #work"))) = [str "work"] ∧
    normalizeTags (str "Work #work") = [str "work", str "work"] := by
  decide

/-- C9 (amended): `normalize (render (normalize x)) = normalize x` holds
whenever `normalize x` contains no (exact) duplicate fragments — the identity
fails exactly on inputs whose fragments collide only after lowercasing, as in
the counterexample; and every input consisting only of `#` and whitespace
(including the empty input) normalizes to the empty list. -/
theorem c9_amended_idempotence :
    (∀ x, (normalizeTags x).Nodup →
      normalizeTags (renderTags (normalizeTags x)) = normalizeTags x) ∧
    (∀ x, (∀ c ∈ x, c = '#' ∨ c.isWhitespace = true) → normalizeTags x = []) := by
  constructor
  · intro x hnd
    cases hl : normalizeTags x with
    | nil => decide
    | cons a rest =>
      have hprops : ∀ e ∈ (a :: rest), e ≠ [] ∧ trimStr e = e ∧ lowerStr e = e ∧
          '#' ∉ e := fun e he => normalizeTags_elem_props x e (hl ▸ he)
      rw [normalizeTags]
      rw [trimStr_renderTags _ (fun e he => ⟨(hprops e he).1, (hprops e he).2.1⟩)
        (by simp)]
      rw [splitOn_renderTags _ (by simp) (fun e he => (hprops e he).2.2.2)]
      rw [map_trimStr_padSep _ (fun e he => (hprops e he).2.1)]
      rw [List.filter_eq_self.mpr (fun e he => by simp [(hprops e he).1])]
      rw [uniqueFirst_of_nodup _ (hl ▸ hnd)]
      exact map_lowerStr_fix _ (fun e he => (hprops e he).2.2.1)
  · intro x hws
    rw [normalizeTags]
    have hfix : ((((trimStr x).splitOn '#').map trimStr).filter (· ≠ [])) = [] := by
      rw [List.filter_eq_nil_iff]
      intro u hu
      rw [List.mem_map] at hu
      obtain ⟨p, hp, rfl⟩ := hu
      have hall : ∀ c ∈ p, c.isWhitespace = true := by
        intro c hc
        have hcx : c ∈ x := mem_trimStr c x (splitOn_pieces_mem _ p hp c hc)
        rcases hws c hcx with rfl | hcw
        · exact absurd hc (splitOn_pieces_no_hash _ p hp)
        · exact hcw
      simp [trimStr_eq_nil_of_ws p hall]
    rw [hfix]
    rfl

/-- C9: witness for both parts of the amended theorem. -/
theorem c9_amended_witness :
    ((normalizeTags (str "a #b")).Nodup ∧
      normalizeTags (renderTags (normalizeTags (str "a #b"))) =
        normalizeTags (str "a #b")) ∧
    ((∀ c ∈ str " ## ", c = '#' ∨ c.isWhitespace = true) ∧
      normalizeTags (str " ## ") = []) :=
  ⟨⟨by decide, c9_amended_idempotence.1 (str "a #b") (by decide)⟩,
   ⟨by decide, c9_amended_idempotence.2 (str " ## ") (by decide)⟩⟩
